import Mathlib

/-!
Verification development for the `slowjsonmutator-go` library
(path-addressed mutation of untyped JSON trees).

The Go source (`main.go`) is embedded shallowly:

* `map[string]interface{}` becomes an association list `List (String × JSON)`
  (Go maps are unordered; key order of the list is a representation choice).
* `[]interface{}` becomes `List JSON`.
* Go `int` becomes `Int`; the only place 64-bit overflow matters is
  `strconv.Atoi`, which is modelled with the explicit `2^63` bounds.
* Fallible Go functions returning `(value, error)` are modelled with `Res`;
  a possible run-time panic (out-of-bounds indexing / slicing) is the
  explicit outcome `Res.panics`.
* Go's in-place mutation of maps/slices is modelled by explicit state
  passing: `remove` and `set` return a pair whose first component is the
  state of the *argument* tree after the call (what a caller still holding
  a reference to the argument would observe), and whose second component is
  the Go return value.
-/

namespace SlowJSON

/-- Outcome of a Go call: normal return value, non-nil error, or panic. -/
inductive Res (α : Type) where
  | ok (a : α)
  | err (msg : String)
  | panics
deriving Repr

/-- Untyped JSON tree, as produced by `json.Unmarshal` into `interface{}`.
Numbers carry an `Int` payload; the mutation code never inspects scalar
payloads, so this choice is immaterial to every claim. -/
inductive JSON where
  | null
  | bool (b : Bool)
  | num (n : Int)
  | str (s : String)
  | obj (fields : List (String × JSON))
  | arr (elems : List JSON)
deriving Repr

/-- Source: `type jsonPathSegment struct { attribute *string; index *int }`.
The parser only ever builds it through `stringSegment` / `indexSegment`,
so exactly one of the two fields is set: a sum type. (`attribute` is a
Lean keyword, hence the constructor name `attr`.) -/
inductive jsonPathSegment where
  | attr (a : String)
  | index (i : Int)
deriving Repr

/-- Source: `func stringSegment(attribute string) jsonPathSegment`. -/
def stringSegment (a : String) : jsonPathSegment :=
  .attr a

/-- Source: `func indexSegment(index int) jsonPathSegment`. -/
def indexSegment (index : Int) : jsonPathSegment :=
  .index index

/-- Go map read `m[k]` with ok-flag: first binding of `k`. -/
def mapLookup (fs : List (String × JSON)) (k : String) : Option JSON :=
  match fs with
  | [] => none
  | (k', v) :: rest => if k' = k then some v else mapLookup rest k

/-- Go map write `m[k] = v`: replace the binding if present, else add it. -/
def mapAssign (fs : List (String × JSON)) (k : String) (v : JSON) :
    List (String × JSON) :=
  match fs with
  | [] => [(k, v)]
  | (k', v') :: rest =>
    if k' = k then (k, v) :: rest else (k', v') :: mapAssign rest k v

/-- Go `delete(m, k)` (a no-op when the key is absent). -/
def mapDelete (fs : List (String × JSON)) (k : String) : List (String × JSON) :=
  match fs with
  | [] => []
  | (k', v') :: rest =>
    if k' = k then mapDelete rest k else (k', v') :: mapDelete rest k

/-- `strings.Index`: position of the first occurrence of `c`, if any
(Go returns `-1` for "absent", modelled as `none`). -/
def charIndex (c : Char) : List Char → Option Nat
  | [] => none
  | x :: rest => if x = c then some 0 else (charIndex c rest).map (· + 1)

/-- Character class `[a-zA-Z0-9_\-]` of the path regexp. -/
def isAttrChar (c : Char) : Bool :=
  ('a' ≤ c && c ≤ 'z') || ('A' ≤ c && c ≤ 'Z') || ('0' ≤ c && c ≤ '9')
    || c = '_' || c = '-'

/-- Character class `[0-9]` of the path regexp. -/
def isDigitChar (c : Char) : Bool :=
  '0' ≤ c && c ≤ '9'

/-- Go `%q` quoting, as used in the parse-error message and by `strconv`.
Exact for the printable ASCII text this code quotes; control and
non-ASCII characters would additionally be escaped by Go. -/
def goQuote (s : String) : String :=
  ⟨'"' :: ((s.data.map fun c =>
      if c = '"' then ['\\', '"']
      else if c = '\\' then ['\\', '\\']
      else [c]).flatten ++ ['"'])⟩

/-- Decimal value of a digit run. -/
def digitsToNat (l : List Char) : Nat :=
  l.foldl (fun acc c => acc * 10 + (c.toNat - '0'.toNat)) 0

/-- `strconv.Atoi` (= `ParseInt(s, 10, 0)` with 64-bit `int`): optional
sign, decimal digits, range `[-2^63, 2^63 - 1]`; on failure the error
message quotes the parsed text. -/
def goAtoi (s : List Char) : Except String Int :=
  let stripped : Bool × List Char :=
    match s with
    | [] => (false, [])
    | c :: r =>
      if c = '+' then (false, r)
      else if c = '-' then (true, r)
      else (false, c :: r)
  if stripped.2.isEmpty || !(stripped.2.all isDigitChar) then
    .error ("strconv.Atoi: parsing " ++ goQuote ⟨s⟩ ++ ": invalid syntax")
  else
    let v : Int :=
      if stripped.1 then -(digitsToNat stripped.2 : Int)
      else (digitsToNat stripped.2 : Int)
    if v < -(2 ^ 63) || 2 ^ 63 - 1 < v then
      .error ("strconv.Atoi: parsing " ++ goQuote ⟨s⟩ ++ ": value out of range")
    else
      .ok v

/-- States of the scanner for the whole-path regexp
`^(?:[a-zA-Z0-9_\-]+|\[[0-9]+\])(?:(?:\.[a-zA-Z0-9_\-]+)|\[[0-9]+\])*$`
(`naiveJSONPathRegexp` in the source). The language is deterministic —
attribute characters, `.`, `[`, `]` and digits interact unambiguously —
so a 6-state DFA recognises it exactly. -/
inductive ScanState where
  | start
  | inAttr
  | afterLB
  | inDigits
  | afterRB
  | afterDot
deriving Repr

/-- DFA transition for the path regexp. -/
def scanStep : ScanState → Char → Option ScanState
  | .start, c =>
    if isAttrChar c then some .inAttr
    else if c = '[' then some .afterLB else none
  | .inAttr, c =>
    if isAttrChar c then some .inAttr
    else if c = '.' then some .afterDot
    else if c = '[' then some .afterLB else none
  | .afterLB, c => if isDigitChar c then some .inDigits else none
  | .inDigits, c =>
    if isDigitChar c then some .inDigits
    else if c = ']' then some .afterRB else none
  | .afterRB, c =>
    if c = '.' then some .afterDot
    else if c = '[' then some .afterLB else none
  | .afterDot, c => if isAttrChar c then some .inAttr else none

/-- Accepting states: end of an attribute run or just after `]`. -/
def scanAccept : ScanState → Bool
  | .inAttr => true
  | .afterRB => true
  | _ => false

/-- Run of the path-regexp DFA. -/
def pathScan : ScanState → List Char → Bool
  | st, [] => scanAccept st
  | st, c :: rest =>
    match scanStep st c with
    | none => false
    | some st' => pathScan st' rest

/-- `naiveJSONPathRegexp.Match([]byte(path))` (anchored whole-string match). -/
def naiveJSONPathRegexpMatch (path : String) : Bool :=
  pathScan .start path.data

/-- Source: `func parseFirstSegment(path string) (jsonPathSegment, string, error)`.
`path[0]` on an empty string and the slice `path[1:-1]` (when `]` is
missing) are Go panics, modelled as `Res.panics`. -/
def parseFirstSegment (path : List Char) : Res (jsonPathSegment × List Char) :=
  match path with
  | [] => .panics
  | c0 :: t0 =>
    -- if path[0] == '.' { path = path[1:] }
    let path1 := if c0 = '.' then t0 else c0 :: t0
    match path1 with
    | [] => .panics
    | c1 :: t1 =>
      if c1 = '[' then
        match charIndex ']' (c1 :: t1) with
        | none => .panics
        | some j =>
          -- strconv.Atoi(path[1:nextClosingSquareBracketIndex])
          match goAtoi (t1.take (j - 1)) with
          | .error e => .err ("failed to parse index: " ++ e)
          | .ok n => .ok (indexSegment n, t1.drop j)
      else
        match charIndex '.' (c1 :: t1), charIndex '[' (c1 :: t1) with
        | none, none => .ok (stringSegment ⟨c1 :: t1⟩, [])
        | none, some k =>
          .ok (stringSegment ⟨(c1 :: t1).take k⟩, (c1 :: t1).drop k)
        | some d, none =>
          .ok (stringSegment ⟨(c1 :: t1).take d⟩, (c1 :: t1).drop d)
        | some d, some k =>
          -- nextIndex := nextDotIndex; 0 < next[ && next[ < nextDot → next[
          let nextIndex := if 0 < k ∧ k < d then k else d
          .ok (stringSegment ⟨(c1 :: t1).take nextIndex⟩, (c1 :: t1).drop nextIndex)

/-- The `for toParse != ""` loop of `parseJSONPath`. The fuel only bounds
the iteration count for the termination checker; each successful step
strictly shortens the remainder, so `length + 1` fuel is never exhausted
(the exhaustion arm is the unreachable `Res.panics`). -/
def parseSegmentsLoop : Nat → List Char → Res (List jsonPathSegment)
  | _, [] => .ok []
  | 0, _ :: _ => .panics
  | fuel + 1, l =>
    match parseFirstSegment l with
    | .err e => .err ("failed to parse json path: " ++ e)
    | .panics => .panics
    | .ok (seg, rest) =>
      match parseSegmentsLoop fuel rest with
      | .ok segs => .ok (seg :: segs)
      | r => r

/-- Source: `func parseJSONPath(path string) ([]jsonPathSegment, error)`. -/
def parseJSONPath (path : String) : Res (List jsonPathSegment) :=
  if naiveJSONPathRegexpMatch path then
    parseSegmentsLoop (path.data.length + 1) path.data
  else
    .err ("cannot parse json path [" ++ goQuote path ++ "], it doesn't seem valid")

/-- Go slice read `xs[n]` at a position the code has already checked to
be in bounds (total here via a default that is never reached). -/
def sliceGet (xs : List JSON) (n : Nat) : JSON :=
  xs.getD n .null

/-- Source: `func removeFromSlice(slice []interface{}, index int) []interface{}`
(the returned slice). -/
def removeFromSlice (slice : List JSON) (index : Int) : List JSON :=
  if index < 0 || (slice.length : Int) ≤ index then slice
  else if index = (slice.length : Int) - 1 then slice.take (slice.length - 1)
  else slice.take index.toNat ++ slice.drop (index.toNat + 1)

/-- State of `removeFromSlice`'s *argument* slice after the call: the
`append(slice[:index], slice[index+1:]...)` branch copies within the
backing array (capacity suffices), so a caller still holding the original
slice header sees the shifted elements with the old last element
duplicated in the final slot; the other branches copy nothing. -/
def removeFromSliceArgPost (slice : List JSON) (index : Int) : List JSON :=
  if index < 0 || (slice.length : Int) ≤ index then slice
  else if index = (slice.length : Int) - 1 then slice
  else slice.take index.toNat ++ slice.drop (index.toNat + 1)
    ++ (slice.getLast?.toList)

/-- Source: `func remove(toModify interface{}, parsedPath []jsonPathSegment)
(interface{}, error)`. First component: state of the argument tree after
the call (Go mutates maps/slices in place); second: the Go return value.
An empty `parsedPath` makes Go's `parsedPath[0]` panic in the map/slice
cases; the nil and default cases return before any indexing. A negative
index with more than one remaining segment makes `toModify[index]` panic. -/
def remove : List jsonPathSegment → JSON → JSON × Res JSON
  | path, .obj fs =>
    match path with
    | [] => (.obj fs, .panics)
    | seg :: rest =>
      match seg with
      | .index _ =>
        (.obj fs, .err "cannot address content of JSON object by index")
      | .attr k =>
        match rest with
        | [] =>
          let fs' := mapDelete fs k
          (.obj fs', .ok (.obj fs'))
        | r0 :: rs =>
          match mapLookup fs k with
          | none => (.obj fs, .ok (.obj fs))
          | some deeper =>
            match remove (r0 :: rs) deeper with
            | (_dpost, .ok modifiedDeeper) =>
              let fs' := mapAssign fs k modifiedDeeper
              (.obj fs', .ok (.obj fs'))
            | (dpost, r) => (.obj (mapAssign fs k dpost), r)
  | path, .arr xs =>
    match path with
    | [] => (.arr xs, .panics)
    | seg :: rest =>
      match seg with
      | .attr _ =>
        (.arr xs, .err "cannot address content of JSON array by attribute")
      | .index i =>
        if (xs.length : Int) ≤ i then (.arr xs, .ok (.arr xs))
        else
          match rest with
          | [] => (.arr (removeFromSliceArgPost xs i), .ok (.arr (removeFromSlice xs i)))
          | r0 :: rs =>
            if i < 0 then (.arr xs, .panics)
            else
              match remove (r0 :: rs) (sliceGet xs i.toNat) with
              | (_dpost, .ok modifiedDeeper) =>
                let xs' := xs.set i.toNat modifiedDeeper
                (.arr xs', .ok (.arr xs'))
              | (dpost, r) => (.arr (xs.set i.toNat dpost), r)
  | _, .null => (.null, .ok .null)
  | _, other => (other, .err "invalid path")

/-- The empty container created by `set`'s nil case: a fresh
`map[string]interface{}` for an attribute head, a fresh `[]interface{}`
for an index head. -/
def vivify : jsonPathSegment → JSON
  | .attr _ => .obj []
  | .index _ => .arr []

/-- Reported post-state of `set`'s argument: a nil argument cannot be
mutated in place, so its post-state stays `null` whatever happened to the
freshly vivified container; any other argument's post-state is the
computed one. -/
def restoreNull : JSON → JSON → JSON
  | .null, _ => .null
  | _, post => post

/-- Source: `func set(toModify interface{}, parsedPath []jsonPathSegment,
value interface{}) (interface{}, error)`. Same state-passing convention
as `remove`. Go's nil case retries `set` on the fresh container with the
*same* path; since that retry immediately dispatches to the map/slice
case, it is inlined here (the node is vivified before the dispatch) to
keep the recursion structural in the path; the argument post-state of the
nil case stays `null` (`restoreNull`). -/
def set : List jsonPathSegment → JSON → JSON → JSON × Res JSON
  | [], node, value => (node, .ok value)
  | seg :: rest, node, value =>
    let node' :=
      match node with
      | .null => vivify seg
      | x => x
    let result : JSON × Res JSON :=
      match node' with
      | .obj fs =>
        match seg with
        | .index _ =>
          (.obj fs, .err "cannot address content of JSON object by index")
        | .attr k =>
          -- deeper := toModify[*attr] (absent key reads as nil)
          match set rest ((mapLookup fs k).getD .null) value with
          | (_dpost, .ok modifiedDeeper) =>
            let fs' := mapAssign fs k modifiedDeeper
            (.obj fs', .ok (.obj fs'))
          | (dpost, r) =>
            -- error: no write-back; in-place changes to an existing child remain
            match mapLookup fs k with
            | some _ => (.obj (mapAssign fs k dpost), r)
            | none => (.obj fs, r)
      | .arr xs =>
        match seg with
        | .attr _ =>
          (.arr xs, .err "cannot address content of JSON array by attribute")
        | .index i =>
          if i < 0 || (xs.length : Int) < i then
            (.arr xs, .err "out of bounds insertion index")
          else
            match set rest (if i < (xs.length : Int) then sliceGet xs i.toNat else .null) value with
            | (_dpost, .ok modifiedDeeper) =>
              if i = (xs.length : Int) then (.arr xs, .ok (.arr (xs ++ [modifiedDeeper])))
              else
                let xs' := xs.set i.toNat modifiedDeeper
                (.arr xs', .ok (.arr xs'))
            | (dpost, r) =>
              if i < (xs.length : Int) then (.arr (xs.set i.toNat dpost), r)
              else (.arr xs, r)
      | x => (x, .err "invalid path")
    (restoreNull node result.1, result.2)

/-- `JSONModification`: a mutation closure over the parsed untyped data,
with the same explicit argument-post-state convention. -/
def JSONModification : Type :=
  JSON → JSON × Res JSON

/-- Source: `func Remove(path string) JSONModification`. -/
def Remove (path : String) : JSONModification :=
  fun toModify =>
    match parseJSONPath path with
    | .err e => (toModify, .err e)
    | .panics => (toModify, .panics)
    | .ok segs =>
      match segs with
      | [] => (toModify, .panics) -- remove would index the empty path (never produced)
      | _ :: _ => remove segs toModify

/-- Source: `func Set(path string, value interface{}) JSONModification`. -/
def Set (path : String) (value : JSON) : JSONModification :=
  fun toModify =>
    match parseJSONPath path with
    | .err e => (toModify, .err e)
    | .panics => (toModify, .panics)
    | .ok segs => set segs toModify value

/-- Outcome of the `for _, modification := range modifications` loop in
`Modify`: the final tree, the first error, or a propagated panic. -/
inductive LoopRes where
  | done (t : JSON)
  | failed (e : String)
  | panicked

/-- The mutation fold of `Modify`: each step rebinds the tree to the
modification's returned value; a non-nil error aborts immediately. -/
def runMutations : List JSONModification → JSON → LoopRes
  | [], t => .done t
  | m :: ms, t =>
    match (m t).2 with
    | .ok t' => runMutations ms t'
    | .err e => .failed e
    | .panics => .panicked

/-- Normal termination (the Go `(string, error)` pair) or a panic. -/
inductive GoOutcome (α : Type) where
  | ret (a : α)
  | panics

/-- Source: `func Modify(input string, modifications ...JSONModification)
(string, error)`. `json.Unmarshal` and `json.Marshal` are external
collaborators, passed as the `decode` / `encode` parameters. -/
def Modify (decode : String → Except String JSON)
    (encode : JSON → Except String String)
    (input : String) (modifications : List JSONModification) :
    GoOutcome (String × Option String) :=
  match decode input with
  | .error e => .ret ("", some e)
  | .ok t =>
    match runMutations modifications t with
    | .panicked => .panics
    | .failed e => .ret ("", some e)
    | .done t' =>
      match encode t' with
      | .error e => .ret ("", some e)
      | .ok result => .ret (result, none)

/-! ### Spec-side definitions

These formalise vocabulary of the specification and claims (not code of
the repository): evaluating a path read against a tree, a path denoting
an absent location, well-formedness of a segment, and substring search
(used to examine error-message contents). -/

/-- Modelled from the spec: "evaluating the same path read against the
result" — follow the segments through the tree; `none` when a segment
cannot be followed. -/
def readPath : List jsonPathSegment → JSON → Option JSON
  | [], node => some node
  | .attr k :: rest, .obj fs =>
    match mapLookup fs k with
    | some v => readPath rest v
    | none => none
  | .index i :: rest, .arr xs =>
    if 0 ≤ i ∧ i < (xs.length : Int) then readPath rest (sliceGet xs i.toNat)
    else none
  | _, _ => none

/-- Modelled from the spec: the path "denotes an absent location" in the
tree — a missing key (leaf or intermediate) in a mapping, or a null value
met while at least one segment remains, at any depth; traversal descends
through existing keys and in-range indices. -/
def absentPath : List jsonPathSegment → JSON → Bool
  | [], _ => false
  | _ :: _, .null => true
  | .attr k :: rest, .obj fs =>
    match mapLookup fs k with
    | none => true
    | some v => !rest.isEmpty && absentPath rest v
  | .index i :: rest, .arr xs =>
    if 0 ≤ i ∧ i < (xs.length : Int) then
      !rest.isEmpty && absentPath rest (sliceGet xs i.toNat)
    else false
  | _, _ => false

/-- A parsed segment is an attribute or a non-negative index. -/
def segWellFormed : jsonPathSegment → Prop
  | .attr _ => True
  | .index i => 0 ≤ i

/-- `needle` occurs verbatim at the front of `hay`. -/
def listStartsWith : List Char → List Char → Bool
  | [], _ => true
  | _ :: _, [] => false
  | a :: as, b :: bs => a = b && listStartsWith as bs

/-- `needle` occurs verbatim somewhere in `hay`. -/
def containsSub (needle hay : List Char) : Bool :=
  match hay with
  | [] => needle.isEmpty
  | _ :: t => listStartsWith needle hay || containsSub needle t

/-! ### Concrete collaborators and mutations used by witnesses -/

/-- A concrete decoder for witnesses: knows the two texts `"in"`/`"out"`. -/
def witDecode : String → Except String JSON := fun s =>
  if s = "in" then .ok (.obj [])
  else if s = "out" then .ok (.obj [("a", .num 1)])
  else .error "unexpected end of JSON input"

/-- A concrete encoder for witnesses: encodes exactly the tree
`{"a": 1}` (to `"out"`), failing on everything else. -/
def witEncode : JSON → Except String String := fun t =>
  match t with
  | .obj [("a", .num 1)] => .ok "out"
  | _ => .error "json: unsupported value"

/-- A concrete decoder for witnesses: decodes `"[]"` to the empty array. -/
def witDecodeArr : String → Except String JSON := fun s =>
  if s = "[]" then .ok (.arr []) else .error "unexpected end of JSON input"

/-- A mutation that succeeds and keeps the tree. -/
def modOk : JSONModification := fun t => (t, .ok t)

/-- A mutation that fails with the error `"boom"`. -/
def modFail : JSONModification := fun t => (t, .err "boom")

/-! ### Helper lemmas about the map and list operations -/

theorem mapLookup_mapAssign_self (fs : List (String × JSON)) (k : String)
    (v : JSON) : mapLookup (mapAssign fs k v) k = some v := by
  induction fs with
  | nil => simp [mapAssign, mapLookup]
  | cons p rest ih =>
    obtain ⟨k', v'⟩ := p
    by_cases h : k' = k <;> simp [mapAssign, mapLookup, h, ih]

theorem mapAssign_self_of_lookup (fs : List (String × JSON)) (k : String)
    (v : JSON) (h : mapLookup fs k = some v) : mapAssign fs k v = fs := by
  induction fs with
  | nil => simp [mapLookup] at h
  | cons p rest ih =>
    obtain ⟨k', v'⟩ := p
    by_cases hk : k' = k
    · simp [mapLookup, hk] at h
      simp [mapAssign, hk, h]
    · simp [mapLookup, hk] at h
      simp [mapAssign, hk, ih h]

theorem mapDelete_of_lookup_none (fs : List (String × JSON)) (k : String)
    (h : mapLookup fs k = none) : mapDelete fs k = fs := by
  induction fs with
  | nil => rfl
  | cons p rest ih =>
    obtain ⟨k', v'⟩ := p
    by_cases hk : k' = k
    · simp [mapLookup, hk] at h
    · simp [mapLookup, hk] at h
      simp [mapDelete, hk, ih h]

theorem sliceGet_set_self (xs : List JSON) (n : Nat)
    (h : n < xs.length) : xs.set n (sliceGet xs n) = xs := by
  induction xs generalizing n with
  | nil => simp at h
  | cons x rest ih =>
    cases n with
    | zero => simp [sliceGet, List.getD]
    | succ m =>
      simp only [List.length_cons, Nat.succ_lt_succ_iff] at h
      simp [sliceGet, List.getD] at ih ⊢
      exact ih m h

theorem sliceGet_set (xs : List JSON) (n : Nat) (v : JSON)
    (h : n < xs.length) : sliceGet (xs.set n v) n = v := by
  induction xs generalizing n with
  | nil => simp at h
  | cons x rest ih =>
    cases n with
    | zero => simp [sliceGet, List.getD]
    | succ m =>
      simp only [List.length_cons, Nat.succ_lt_succ_iff] at h
      simp [sliceGet, List.getD] at ih ⊢
      exact ih m h

theorem sliceGet_append_self (xs : List JSON) (v : JSON) :
    sliceGet (xs ++ [v]) xs.length = v := by
  induction xs with
  | nil => rfl
  | cons x rest ih => simp [sliceGet, List.getD] at ih ⊢

/-! ### Claim C2: auto-vivification on null -/

/-- C2: when `set` reaches a null node with at least one segment left, it
builds an empty mapping for an attribute head and an empty sequence for
an index head and retries `set` on that fresh container with the same
segments and value (first conjunct: the returned value equals that of the
retry on `vivify seg`); in particular `Set("manager.titles[0].fr",
"Suzerain")` on the tree of `{"name":"Perceval"}` returns a tree equal —
hence semantically equal — to the tree of
`{"name":"Perceval","manager":{"titles":[{"fr":"Suzerain"}]}}`. -/
theorem C2_null_vivifies_and_retries :
    (∀ (seg : jsonPathSegment) (rest : List jsonPathSegment) (v : JSON),
      (set (seg :: rest) .null v).2 = (set (seg :: rest) (vivify seg) v).2)
    ∧ (Set "manager.titles[0].fr" (.str "Suzerain")
        (.obj [("name", .str "Perceval")])).2 =
      .ok (.obj [("name", .str "Perceval"),
        ("manager", .obj [("titles", .arr [.obj [("fr", .str "Suzerain")]])])]) := by
  constructor
  · intro seg rest v
    cases seg <;> rfl
  · rfl

/-! ### Claim C8: attribute/index kind mismatches -/

/-- C8: on a sequence with an attribute head, and on a mapping with an
index head, both `remove` and `set` fail with the corresponding
`AddressError` message, whatever the rest of the path is; and the
scenario `Modify("[]", Remove("knight"))` fails with
`cannot address content of JSON array by attribute`. -/
theorem C8_address_kind_mismatch :
    (∀ (a : String) (rest : List jsonPathSegment) (xs : List JSON),
      (remove (.attr a :: rest) (.arr xs)).2 =
        .err "cannot address content of JSON array by attribute")
    ∧ (∀ (a : String) (rest : List jsonPathSegment) (xs : List JSON) (v : JSON),
      (set (.attr a :: rest) (.arr xs) v).2 =
        .err "cannot address content of JSON array by attribute")
    ∧ (∀ (i : Int) (rest : List jsonPathSegment) (fs : List (String × JSON)),
      (remove (.index i :: rest) (.obj fs)).2 =
        .err "cannot address content of JSON object by index")
    ∧ (∀ (i : Int) (rest : List jsonPathSegment) (fs : List (String × JSON)) (v : JSON),
      (set (.index i :: rest) (.obj fs) v).2 =
        .err "cannot address content of JSON object by index")
    ∧ (∀ (decode : String → Except String JSON) (encode : JSON → Except String String),
      decode "[]" = .ok (.arr []) →
      Modify decode encode "[]" [Remove "knight"] =
        .ret ("", some "cannot address content of JSON array by attribute")) := by
  refine ⟨fun a rest xs => rfl, fun a rest xs v => rfl,
    fun i rest fs => rfl, fun i rest fs v => rfl, ?_⟩
  intro decode encode hdec
  simp only [Modify, hdec]
  rfl

/-- Witness for C8's hypothesis-bearing scenario conjunct, at the
concrete decoder `witDecodeArr`. -/
theorem C8_address_kind_mismatch_witness :
    Modify witDecodeArr witEncode "[]" [Remove "knight"] =
      .ret ("", some "cannot address content of JSON array by attribute") :=
  C8_address_kind_mismatch.2.2.2.2 witDecodeArr witEncode rfl

/-! ### Claim C4: array index semantics of `set` -/

/-- C4: `set` on a sequence of length `n` with head index `i`: at
`i = n` the result of the recursive descent is appended; at `i > n` or
`i < 0` it fails with `out of bounds insertion index`. -/
theorem C4_set_array_bounds (xs : List JSON) (i : Int)
    (rest : List jsonPathSegment) (v : JSON) :
    (i = (xs.length : Int) →
      (set (.index i :: rest) (.arr xs) v).2 =
        match (set rest .null v).2 with
        | .ok d => .ok (.arr (xs ++ [d]))
        | r => r)
    ∧ ((xs.length : Int) < i ∨ i < 0 →
      (set (.index i :: rest) (.arr xs) v).2 =
        .err "out of bounds insertion index") := by
  constructor
  · intro hi
    subst hi
    simp only [set]
    have h1 : ¬((xs.length : Int) < 0 ∨ (xs.length : Int) < (xs.length : Int)) := by omega
    have h2 : ¬((xs.length : Int) < (xs.length : Int)) := by omega
    simp only [decide_eq_true_eq, if_neg, h1, h2, Bool.or_eq_true, decide_eq_false_iff_not]
    have h0 : ¬((xs.length : Int) < 0) := by omega
    rcases hres : set rest JSON.null v with ⟨dpost, r⟩
    cases r <;> simp [hres, h2, h0]
  · intro hi
    have : (i < 0 || (xs.length : Int) < i) = true := by
      rcases hi with h | h <;> simp [h]
    simp [set, this]

/-- Witness for C4 at a concrete sequence: appending at `i = 1` on
`[1]` and failing at `i = 2`. -/
theorem C4_set_array_bounds_witness :
    (set [.index 1] (.arr [.num 7]) (.num 9)).2 = .ok (.arr [.num 7, .num 9])
    ∧ (set [.index 2] (.arr [.num 7]) (.num 9)).2 =
        .err "out of bounds insertion index" := by
  constructor
  · have h := (C4_set_array_bounds [.num 7] 1 [] (.num 9)).1 (by decide)
    simpa using h
  · exact (C4_set_array_bounds [.num 7] 2 [] (.num 9)).2 (by norm_num)

/-! ### Claim C6: error paths leave the argument tree unchanged -/

theorem remove_err_post (path : List jsonPathSegment) (t : JSON) (e : String)
    (h : (remove path t).2 = .err e) : (remove path t).1 = t := by
  induction path generalizing t e with
  | nil => cases t <;> simp [remove] at h ⊢
  | cons seg rest ih =>
    cases t with
    | null => simp [remove] at h
    | bool b => simp [remove]
    | num n => simp [remove]
    | str s => simp [remove]
    | obj fs =>
      cases seg with
      | index i => simp [remove]
      | attr k =>
        cases rest with
        | nil => simp [remove] at h
        | cons r0 rs =>
          rcases hl : mapLookup fs k with _ | dv
          · simp [remove, hl] at h
          · rcases hr : remove (r0 :: rs) dv with ⟨dpost, res⟩
            cases res with
            | ok d => simp [remove, hl, hr] at h
            | err e' =>
              have hd : dpost = dv := by
                have := ih dv e' (by rw [hr])
                rwa [hr] at this
              simp [remove, hl, hr, hd, mapAssign_self_of_lookup fs k dv hl]
            | panics => simp [remove, hl, hr] at h
    | arr xs =>
      cases seg with
      | attr a => simp [remove]
      | index i =>
        by_cases hle : (xs.length : Int) ≤ i
        · rw [remove.eq_def] at h
          simp only [] at h
          rw [if_pos hle] at h
          simp at h
        · cases rest with
          | nil => simp [remove, hle] at h
          | cons r0 rs =>
            by_cases hneg : i < 0
            · simp [remove, hle, hneg] at h
            · rcases hr : remove (r0 :: rs) (sliceGet xs i.toNat) with ⟨dpost, res⟩
              cases res with
              | ok d => simp [remove, hle, hneg, hr] at h
              | err e' =>
                have hd : dpost = sliceGet xs i.toNat := by
                  have := ih (sliceGet xs i.toNat) e' (by rw [hr])
                  rwa [hr] at this
                have hb : i.toNat < xs.length := by omega
                simp [remove, hle, hneg, hr, hd,
                  sliceGet_set_self xs i.toNat hb]
              | panics => simp [remove, hle, hneg, hr] at h

theorem set_err_post (path : List jsonPathSegment) (t v : JSON) (e : String)
    (h : (set path t v).2 = .err e) : (set path t v).1 = t := by
  induction path generalizing t e with
  | nil => simp [set] at h
  | cons seg rest ih =>
    cases t with
    | null => simp [set, restoreNull]
    | bool b => simp [set, restoreNull]
    | num n => simp [set, restoreNull]
    | str s => simp [set, restoreNull]
    | obj fs =>
      cases seg with
      | index i => simp [set, restoreNull]
      | attr k =>
        rcases hl : mapLookup fs k with _ | dv
        · rcases hr : set rest JSON.null v with ⟨dpost, res⟩
          have hr' : set rest ((mapLookup fs k).getD .null) v = (dpost, res) := by
            rw [hl]; exact hr
          cases res with
          | ok d => simp [set, restoreNull, hl, hr, hr'] at h
          | err e' => simp [set, restoreNull, hl, hr, hr']
          | panics => simp [set, restoreNull, hl, hr, hr'] at h
        · rcases hr : set rest dv v with ⟨dpost, res⟩
          have hr' : set rest ((mapLookup fs k).getD .null) v = (dpost, res) := by
            rw [hl]; exact hr
          cases res with
          | ok d => simp [set, restoreNull, hl, hr, hr'] at h
          | err e' =>
            have hd : dpost = dv := by
              have := ih dv e' (by rw [hr])
              rwa [hr] at this
            simp [set, restoreNull, hl, hr, hr', hd,
              mapAssign_self_of_lookup fs k dv hl]
          | panics => simp [set, restoreNull, hl, hr, hr'] at h
    | arr xs =>
      cases seg with
      | attr a => simp [set, restoreNull]
      | index i =>
        by_cases hb : i < 0 ∨ (xs.length : Int) < i
        · have : (decide (i < 0) || decide ((xs.length : Int) < i)) = true := by
            rcases hb with hx | hx <;> simp [hx]
          simp [set, restoreNull, this]
        · have hb1 : ¬(i < 0) := by omega
          have hb2 : ¬((xs.length : Int) < i) := by omega
          by_cases hlt : i < (xs.length : Int)
          · rcases hr : set rest (sliceGet xs i.toNat) v with ⟨dpost, res⟩
            have hr' : set rest (if i < (xs.length : Int) then sliceGet xs i.toNat else .null) v
                = (dpost, res) := by
              rw [if_pos hlt]; exact hr
            cases res with
            | ok d =>
              have hi : ¬ i = (xs.length : Int) := by omega
              simp [set, restoreNull, hb1, hb2, hr, hr', hi] at h
            | err e' =>
              have hd : dpost = sliceGet xs i.toNat := by
                have := ih (sliceGet xs i.toNat) e' (by rw [hr])
                rwa [hr] at this
              have hn : i.toNat < xs.length := by omega
              simp [set, restoreNull, hb1, hb2, hr, hr', hd, hlt,
                sliceGet_set_self xs i.toNat hn]
            | panics => simp [set, restoreNull, hb1, hb2, hr, hr', hlt] at h
          · have h0 : ¬((xs.length : Int) < 0) := by omega
            have hieq : i = (xs.length : Int) := by omega
            rcases hr : set rest JSON.null v with ⟨dpost, res⟩
            have hr' : set rest (if i < (xs.length : Int) then sliceGet xs i.toNat else .null) v
                = (dpost, res) := by
              rw [if_neg hlt]; exact hr
            cases res with
            | ok d => simp [set, restoreNull, hb1, hb2, hr, hr', hieq, h0] at h
            | err e' => simp [set, restoreNull, hb1, hb2, hr, hr', hlt]
            | panics => simp [set, restoreNull, hb1, hb2, hr, hr', hieq, h0] at h

/-- C6: whenever `remove` or `set` returns a (non-nil) error, the
caller's argument tree is unchanged: the post-state of the argument
equals the input, so no partial mutation is observable alongside the
returned error. -/
theorem C6_no_partial_mutation_on_error :
    (∀ (path : List jsonPathSegment) (t : JSON) (e : String),
      (remove path t).2 = .err e → (remove path t).1 = t)
    ∧ (∀ (path : List jsonPathSegment) (t v : JSON) (e : String),
      (set path t v).2 = .err e → (set path t v).1 = t) :=
  ⟨remove_err_post, set_err_post⟩

/-- Witness for C6: a failing `remove` (attribute into a scalar, after
descending through an existing key) and a failing `set` (out-of-bounds
index behind an existing key) leave the concrete input trees unchanged. -/
theorem C6_no_partial_mutation_on_error_witness :
    (remove [.attr "name", .attr "complete"] (.obj [("name", .str "P")])).1 =
      .obj [("name", .str "P")]
    ∧ (set [.attr "a", .index 2] (.obj [("a", .arr [.num 1])]) (.num 5)).1 =
      .obj [("a", .arr [.num 1])] :=
  ⟨C6_no_partial_mutation_on_error.1 _ _ "invalid path" rfl,
   C6_no_partial_mutation_on_error.2 _ _ _ "out of bounds insertion index" rfl⟩

/-! ### Claim C3: `remove` on an absent location is a no-op -/

theorem remove_absent_noop (path : List jsonPathSegment) (t : JSON)
    (h : absentPath path t = true) : (remove path t).2 = .ok t := by
  induction path generalizing t with
  | nil => simp [absentPath] at h
  | cons seg rest ih =>
    cases t with
    | null => rfl
    | bool b => simp [absentPath] at h
    | num n => simp [absentPath] at h
    | str s => simp [absentPath] at h
    | obj fs =>
      cases seg with
      | index i => simp [absentPath] at h
      | attr k =>
        rcases hl : mapLookup fs k with _ | dv
        · cases rest with
          | nil => simp [remove, mapDelete_of_lookup_none fs k hl]
          | cons r0 rs => simp [remove, hl]
        · simp [absentPath, hl] at h
          obtain ⟨hne, hdeep⟩ := h
          cases rest with
          | nil => simp at hne
          | cons r0 rs =>
            have hrec := ih dv hdeep
            rcases hr : remove (r0 :: rs) dv with ⟨dpost, res⟩
            rw [hr] at hrec
            cases hrec
            simp [remove, hl, hr, mapAssign_self_of_lookup fs k dv hl]
    | arr xs =>
      cases seg with
      | attr a => simp [absentPath] at h
      | index i =>
        by_cases hin : 0 ≤ i ∧ i < (xs.length : Int)
        · simp [absentPath, hin] at h
          obtain ⟨hne, hdeep⟩ := h
          cases rest with
          | nil => simp at hne
          | cons r0 rs =>
            have hle : ¬((xs.length : Int) ≤ i) := by omega
            have hneg : ¬(i < 0) := by omega
            have hrec := ih (sliceGet xs i.toNat) hdeep
            rcases hr : remove (r0 :: rs) (sliceGet xs i.toNat) with ⟨dpost, res⟩
            rw [hr] at hrec
            cases hrec
            have hn : i.toNat < xs.length := by omega
            simp [remove, hle, hneg, hr, sliceGet_set_self xs i.toNat hn]
        · rw [absentPath.eq_def] at h
          simp [hin] at h

/-- C3: for every tree and every grammatically valid path that denotes an
absent location (missing leaf key, missing intermediate key, or a null
value met on the way, at any depth), `Remove` succeeds and returns the
input tree unchanged. -/
theorem C3_remove_absent_is_noop (p : String) (segs : List jsonPathSegment)
    (t : JSON) (hp : parseJSONPath p = .ok segs)
    (h : absentPath segs t = true) : (Remove p t).2 = .ok t := by
  have hcore := remove_absent_noop segs t h
  cases segs with
  | nil => simp [absentPath] at h
  | cons s0 srest => simp [Remove, hp, hcore]

/-- Witness for C3: removing `manager.home.type` (missing intermediate
key at depth 1) from `{"name":"Perceval"}` returns the tree unchanged. -/
theorem C3_remove_absent_is_noop_witness :
    (Remove "manager.home.type" (.obj [("name", .str "Perceval")])).2 =
      .ok (.obj [("name", .str "Perceval")]) :=
  C3_remove_absent_is_noop "manager.home.type"
    [.attr "manager", .attr "home", .attr "type"]
    (.obj [("name", .str "Perceval")]) rfl rfl

/-! ### Claim C1: `Set` followed by the same path read yields the value -/

theorem set_ok_readPath (path : List jsonPathSegment) (t v out : JSON)
    (h : (set path t v).2 = .ok out) : readPath path out = some v := by
  induction path generalizing t out with
  | nil =>
    simp [set] at h
    simp [readPath, ← h]
  | cons seg rest ih =>
    have hobj : ∀ fs out, (set (seg :: rest) (.obj fs) v).2 = .ok out →
        readPath (seg :: rest) out = some v := by
      intro fs out h
      cases seg with
      | index i => simp [set, restoreNull] at h
      | attr k =>
        rcases hl : mapLookup fs k with _ | dv
        · rcases hr : set rest JSON.null v with ⟨dpost, res⟩
          have hr' : set rest ((mapLookup fs k).getD .null) v = (dpost, res) := by
            rw [hl]; exact hr
          cases res with
          | ok d =>
            simp [set, restoreNull, hl, hr, hr'] at h
            subst h
            simp [readPath, mapLookup_mapAssign_self]
            exact ih JSON.null d (by rw [hr])
          | err e' => simp [set, restoreNull, hl, hr, hr'] at h
          | panics => simp [set, restoreNull, hl, hr, hr'] at h
        · rcases hr : set rest dv v with ⟨dpost, res⟩
          have hr' : set rest ((mapLookup fs k).getD .null) v = (dpost, res) := by
            rw [hl]; exact hr
          cases res with
          | ok d =>
            simp [set, restoreNull, hl, hr, hr'] at h
            subst h
            simp [readPath, mapLookup_mapAssign_self]
            exact ih dv d (by rw [hr])
          | err e' => simp [set, restoreNull, hl, hr, hr'] at h
          | panics => simp [set, restoreNull, hl, hr, hr'] at h
    have harr : ∀ xs out, (set (seg :: rest) (.arr xs) v).2 = .ok out →
        readPath (seg :: rest) out = some v := by
      intro xs out h
      cases seg with
      | attr a => simp [set, restoreNull] at h
      | index i =>
        by_cases hb : i < 0 ∨ (xs.length : Int) < i
        · have : (decide (i < 0) || decide ((xs.length : Int) < i)) = true := by
            rcases hb with hx | hx <;> simp [hx]
          simp [set, restoreNull, this] at h
        · have hb1 : ¬(i < 0) := by omega
          have hb2 : ¬((xs.length : Int) < i) := by omega
          by_cases hlt : i < (xs.length : Int)
          · rcases hr : set rest (sliceGet xs i.toNat) v with ⟨dpost, res⟩
            have hr' : set rest (if i < (xs.length : Int) then sliceGet xs i.toNat else .null) v
                = (dpost, res) := by
              rw [if_pos hlt]; exact hr
            cases res with
            | ok d =>
              have hi : ¬ i = (xs.length : Int) := by omega
              simp [set, restoreNull, hb1, hb2, hr, hr', hi] at h
              subst h
              have hn : i.toNat < xs.length := by omega
              have hcond : 0 ≤ i ∧ i < ((xs.set i.toNat d).length : Int) := by
                simp [List.length_set]; omega
              simp [readPath, hcond, sliceGet_set xs i.toNat d hn]
              refine ⟨by omega, ?_⟩
              exact ih (sliceGet xs i.toNat) d (by rw [hr])
            | err e' => simp [set, restoreNull, hb1, hb2, hr, hr', hlt] at h
            | panics => simp [set, restoreNull, hb1, hb2, hr, hr', hlt] at h
          · have h0 : ¬((xs.length : Int) < 0) := by omega
            have hieq : i = (xs.length : Int) := by omega
            rcases hr : set rest JSON.null v with ⟨dpost, res⟩
            have hr' : set rest (if i < (xs.length : Int) then sliceGet xs i.toNat else .null) v
                = (dpost, res) := by
              rw [if_neg hlt]; exact hr
            cases res with
            | ok d =>
              simp [set, restoreNull, hb1, hb2, hr, hr', hieq, h0] at h
              subst h
              have hcond : 0 ≤ i ∧ i < ((xs ++ [d]).length : Int) := by
                simp; omega
              have htn : i.toNat = xs.length := by omega
              simp [readPath, hcond, htn, sliceGet_append_self]
              refine ⟨by omega, ?_⟩
              exact ih JSON.null d (by rw [hr])
            | err e' => simp [set, restoreNull, hb1, hb2, hr, hr', hieq, h0] at h
            | panics => simp [set, restoreNull, hb1, hb2, hr, hr', hieq, h0] at h
    cases t with
    | obj fs => exact hobj fs out h
    | arr xs => exact harr xs out h
    | null =>
      cases seg with
      | attr k =>
        exact hobj [] out (by rw [show (set (.attr k :: rest) JSON.null v).2
          = (set (.attr k :: rest) (JSON.obj []) v).2 from rfl] at h; exact h)
      | index i =>
        exact harr [] out (by rw [show (set (.index i :: rest) JSON.null v).2
          = (set (.index i :: rest) (JSON.arr []) v).2 from rfl] at h; exact h)
    | bool b => simp [set, restoreNull] at h
    | num n => simp [set, restoreNull] at h
    | str s => simp [set, restoreNull] at h

/-- C1: for every input text that decodes to a tree, every path accepted
by the grammar and every value, if `Modify` with the single mutation
`Set(p, v)` succeeds, then evaluating the same path read against the
decoded output tree yields the value `v` itself (hence a value deeply
equal to `v`). The decoder/encoder pair are the external collaborators;
`hrt` states that decoding an encoder output gives back the encoded tree. -/
theorem C1_set_then_read (decode : String → Except String JSON)
    (encode : JSON → Except String String) (p : String) (v : JSON)
    (segs : List jsonPathSegment) (input s : String) (t0 out : JSON)
    (hrt : ∀ u su, encode u = .ok su → decode su = .ok u)
    (hp : parseJSONPath p = .ok segs)
    (hdec : decode input = .ok t0)
    (hmod : Modify decode encode input [Set p v] = .ret (s, none))
    (hout : decode s = .ok out) :
    readPath segs out = some v := by
  rcases hset : set segs t0 v with ⟨tpost, res⟩
  have happ : (Set p v) t0 = (tpost, res) := by
    simp [Set, hp, hset]
  cases res with
  | ok t' =>
    have hrun : runMutations [Set p v] t0 = .done t' := by
      simp [runMutations, happ]
    rcases henc : encode t' with e | s'
    · simp [Modify, hdec, hrun, henc] at hmod
    · simp [Modify, hdec, hrun, henc] at hmod
      obtain rfl := hmod
      have := hrt t' s' henc
      rw [this] at hout
      cases hout
      exact set_ok_readPath segs t0 v out (by rw [hset])
  | err e =>
    have hrun : runMutations [Set p v] t0 = .failed e := by
      simp [runMutations, happ]
    simp [Modify, hdec, hrun] at hmod
  | panics =>
    have hrun : runMutations [Set p v] t0 = .panicked := by
      simp [runMutations, happ]
    simp [Modify, hdec, hrun] at hmod

/-- Witness for C1: on the collaborators `witDecode`/`witEncode`,
`Modify("in", Set("a", 1))` succeeds with output text `"out"`, and
reading `a` in the decoded output yields `1`. -/
theorem C1_set_then_read_witness :
    readPath [.attr "a"] (.obj [("a", .num 1)]) = some (.num 1) := by
  refine C1_set_then_read witDecode witEncode "a" (.num 1) [.attr "a"]
    "in" "out" (.obj []) (.obj [("a", .num 1)]) ?_ rfl rfl rfl rfl
  intro u su h
  unfold witEncode at h
  split at h
  · injection h with h1
    subst h1
    rfl
  · exact absurd h (by simp)

/-! ### Claim C7: strict left-to-right fold, first error aborts -/

theorem runMutations_append (pre post : List JSONModification) (t : JSON) :
    runMutations (pre ++ post) t =
      match runMutations pre t with
      | .done t' => runMutations post t'
      | r => r := by
  induction pre generalizing t with
  | nil => rfl
  | cons m ms ih =>
    simp only [List.cons_append, runMutations]
    cases (m t).2 <;> simp [ih]

/-- C7: `Modify` folds its mutations strictly in order, left to right:
if every mutation of `pre` succeeds and the next mutation `m` fails, the
whole run fails with `m`'s error whatever mutations follow (they are
never applied); a failed run makes `Modify` return that error with the
empty string; and whenever `Modify` returns an error the string result
is empty. -/
theorem C7_first_error_aborts :
    (∀ (pre post : List JSONModification) (m : JSONModification)
      (t t' : JSON) (e : String),
      runMutations pre t = .done t' → (m t').2 = .err e →
      runMutations (pre ++ m :: post) t = .failed e)
    ∧ (∀ (decode : String → Except String JSON)
        (encode : JSON → Except String String) (input : String)
        (mods : List JSONModification) (t : JSON) (e : String),
      decode input = .ok t → runMutations mods t = .failed e →
      Modify decode encode input mods = .ret ("", some e))
    ∧ (∀ (decode : String → Except String JSON)
        (encode : JSON → Except String String) (input : String)
        (mods : List JSONModification) (s e : String),
      Modify decode encode input mods = .ret (s, some e) → s = "") := by
  refine ⟨?_, ?_, ?_⟩
  · intro pre post m t t' e hpre hm
    rw [runMutations_append, hpre]
    simp [runMutations, hm]
  · intro decode encode input mods t e hdec hrun
    simp [Modify, hdec, hrun]
  · intro decode encode input mods s e h
    unfold Modify at h
    rcases hdec : decode input with e' | t <;> rw [hdec] at h <;> simp only [] at h
    · simp only [GoOutcome.ret.injEq, Prod.mk.injEq] at h
      exact h.1.symm
    · rcases hrun : runMutations mods t with t' | e' <;> rw [hrun] at h <;>
        simp only [] at h
      · rcases henc : encode t' with e' | r <;> rw [henc] at h <;>
          simp only [] at h
        · simp only [GoOutcome.ret.injEq, Prod.mk.injEq] at h
          exact h.1.symm
        · simp at h
      · simp only [GoOutcome.ret.injEq, Prod.mk.injEq] at h
        exact h.1.symm
      · simp at h

/-- Witness for C7: with a succeeding first mutation and a failing
second one, the trailing mutation is never consulted and `Modify`
returns `("", "boom")`; the empty-on-error fact is checked on that run. -/
theorem C7_first_error_aborts_witness :
    runMutations ([modOk] ++ modFail :: [modOk]) (.obj []) = .failed "boom"
    ∧ Modify witDecode witEncode "in" [modOk, modFail, modOk] =
        .ret ("", some "boom")
    ∧ "" = "" := by
  have h1 := C7_first_error_aborts.1 [modOk] [modOk] modFail
    (.obj []) (.obj []) "boom" rfl rfl
  have h2 := C7_first_error_aborts.2.1 witDecode witEncode "in"
    [modOk, modFail, modOk] (.obj []) "boom" rfl (by exact h1)
  have h3 := C7_first_error_aborts.2.2 witDecode witEncode "in"
    [modOk, modFail, modOk] "" "boom" h2
  exact ⟨h1, h2, h3⟩

/-! ### Claim C10: malformed paths surface only at application time -/

/-- C10: `Remove(path)` and `Set(path, value)` are total constructors —
they always produce a mutation value; a malformed path is only detected
when the mutation is applied: applying either mutation to any tree
returns the `ParseError` carrying the quoted path, and inside `Modify`
that error surfaces as the mutation's error, never at construction. -/
theorem C10_parse_error_at_application (p : String)
    (hbad : naiveJSONPathRegexpMatch p = false) :
    (∀ t : JSON, (Remove p t).2 =
      .err ("cannot parse json path [" ++ goQuote p ++ "], it doesn't seem valid"))
    ∧ (∀ t v : JSON, (Set p v t).2 =
      .err ("cannot parse json path [" ++ goQuote p ++ "], it doesn't seem valid"))
    ∧ (∀ (decode : String → Except String JSON)
        (encode : JSON → Except String String) (input : String) (t0 : JSON),
      decode input = .ok t0 →
      Modify decode encode input [Remove p] =
        .ret ("", some ("cannot parse json path [" ++ goQuote p
          ++ "], it doesn't seem valid"))) := by
  have hp : parseJSONPath p =
      .err ("cannot parse json path [" ++ goQuote p ++ "], it doesn't seem valid") := by
    simp [parseJSONPath, naiveJSONPathRegexpMatch] at hbad ⊢
    simp [hbad]
  refine ⟨fun t => by simp [Remove, hp], fun t v => by simp [Set, hp], ?_⟩
  intro decode encode input t0 hdec
  have hrun : runMutations [Remove p] t0 =
      .failed ("cannot parse json path [" ++ goQuote p ++ "], it doesn't seem valid") := by
    simp [runMutations, Remove, hp]
  simp [Modify, hdec, hrun]

/-- Witness for C10 at the malformed path `a..b`: the constructors
produce mutations, and the `ParseError` appears when they are applied
(directly and through `Modify`). -/
theorem C10_parse_error_at_application_witness :
    (Remove "a..b" JSON.null).2 =
      .err "cannot parse json path [\"a..b\"], it doesn't seem valid"
    ∧ (Set "a..b" (.num 1) JSON.null).2 =
      .err "cannot parse json path [\"a..b\"], it doesn't seem valid"
    ∧ Modify witDecode witEncode "in" [Remove "a..b"] =
      .ret ("", some "cannot parse json path [\"a..b\"], it doesn't seem valid") := by
  have h := C10_parse_error_at_application "a..b" rfl
  exact ⟨h.1 JSON.null, h.2.1 JSON.null (.num 1),
    h.2.2 witDecode witEncode "in" (.obj []) rfl⟩

/-! ### Claim C5: removal from an array compacts it, out of range is a no-op -/

theorem removeFromSlice_eq (xs : List JSON) (i : Int) (h0 : 0 ≤ i)
    (hlt : i < (xs.length : Int)) :
    removeFromSlice xs i = xs.take i.toNat ++ xs.drop (i.toNat + 1) := by
  unfold removeFromSlice
  have hng : ¬(i < 0 || (xs.length : Int) ≤ i) = true := by
    simp
    omega
  rw [if_neg hng]
  by_cases hlast : i = (xs.length : Int) - 1
  · rw [if_pos hlast]
    have h1 : i.toNat = xs.length - 1 := by omega
    have h2 : xs.length ≤ i.toNat + 1 := by omega
    rw [h1, List.drop_eq_nil_of_le (by omega), List.append_nil]
  · rw [if_neg hlast]

theorem remove_last_index (q : List jsonPathSegment) (i : Int) (t : JSON)
    (xs : List JSON) (hread : readPath q t = some (.arr xs)) :
    ((0 ≤ i → i < (xs.length : Int) →
      ∃ t', (remove (q ++ [.index i]) t).2 = .ok t' ∧
        readPath q t' = some (.arr (xs.take i.toNat ++ xs.drop (i.toNat + 1))))
    ∧ ((xs.length : Int) ≤ i → (remove (q ++ [.index i]) t).2 = .ok t)) := by
  induction q generalizing t with
  | nil =>
    simp [readPath] at hread
    subst hread
    constructor
    · intro h0 hlt
      refine ⟨.arr (xs.take i.toNat ++ xs.drop (i.toNat + 1)), ?_, by simp [readPath]⟩
      have hle : ¬((xs.length : Int) ≤ i) := by omega
      simp [remove, hle, removeFromSlice_eq xs i h0 hlt]
    · intro hge
      simp [remove, hge]
  | cons s0 q' ih =>
    obtain ⟨r0, rs, hq⟩ : ∃ r0 rs, q' ++ [jsonPathSegment.index i] = r0 :: rs := by
      cases q' <;> exact ⟨_, _, rfl⟩
    cases t with
    | null => rw [readPath.eq_def] at hread; cases s0 <;> simp at hread
    | bool b => rw [readPath.eq_def] at hread; cases s0 <;> simp at hread
    | num n => rw [readPath.eq_def] at hread; cases s0 <;> simp at hread
    | str st => rw [readPath.eq_def] at hread; cases s0 <;> simp at hread
    | obj fs =>
      cases s0 with
      | index j => simp [readPath] at hread
      | attr k =>
        rcases hl : mapLookup fs k with _ | sub
        · simp [readPath, hl] at hread
        · simp [readPath, hl] at hread
          obtain ⟨hin, hout⟩ := ih sub hread
          constructor
          · intro h0 hlt
            obtain ⟨t'', hrem, hrd⟩ := hin h0 hlt
            rcases hr : remove (q' ++ [.index i]) sub with ⟨dpost, res⟩
            rw [hr] at hrem
            cases hrem
            rw [hq] at hr
            refine ⟨.obj (mapAssign fs k t''), ?_, ?_⟩
            · simp [List.cons_append, hq, remove, hl, hr]
            · simp [readPath, mapLookup_mapAssign_self]
              exact hrd
          · intro hge
            have h2 := hout hge
            rcases hr : remove (q' ++ [.index i]) sub with ⟨dpost, res⟩
            rw [hr] at h2
            cases h2
            rw [hq] at hr
            simp [List.cons_append, hq, remove, hl, hr,
              mapAssign_self_of_lookup fs k sub hl]
    | arr ys =>
      cases s0 with
      | attr a => simp [readPath] at hread
      | index j =>
        by_cases hj : 0 ≤ j ∧ j < (ys.length : Int)
        · rw [readPath.eq_def] at hread
          simp [hj] at hread
          obtain ⟨hin, hout⟩ := ih (sliceGet ys j.toNat) hread
          have hle : ¬((ys.length : Int) ≤ j) := by omega
          have hneg : ¬(j < 0) := by omega
          have hjn : j.toNat < ys.length := by omega
          constructor
          · intro h0 hlt
            obtain ⟨t'', hrem, hrd⟩ := hin h0 hlt
            rcases hr : remove (q' ++ [.index i]) (sliceGet ys j.toNat) with ⟨dpost, res⟩
            rw [hr] at hrem
            cases hrem
            rw [hq] at hr
            refine ⟨.arr (ys.set j.toNat t''), ?_, ?_⟩
            · simp [List.cons_append, hq, remove, hle, hneg, hr]
            · have hcond : 0 ≤ j ∧ j < ((ys.set j.toNat t'').length : Int) := by
                simp [List.length_set]
                omega
              simp [readPath, hcond, sliceGet_set ys j.toNat t'' hjn]
              refine ⟨by omega, ?_⟩
              exact hrd
          · intro hge
            have h2 := hout hge
            rcases hr : remove (q' ++ [.index i]) (sliceGet ys j.toNat) with ⟨dpost, res⟩
            rw [hr] at h2
            cases h2
            rw [hq] at hr
            simp [List.cons_append, hq, remove, hle, hneg, hr,
              sliceGet_set_self ys j.toNat hjn]
        · rw [readPath.eq_def] at hread
          simp [hj] at hread

/-- C5: for every sequence reachable in the tree by a path prefix `q`
and every path ending in index `i`: when `0 ≤ i < n`, `remove` succeeds
and the sequence at `q` becomes `take i ++ drop (i+1)` — the element at
`i` is deleted, the remaining elements keep their relative order, and the
length is exactly `n - 1`; when `i ≥ n`, the whole tree is returned
unchanged. -/
theorem C5_remove_array_index (q : List jsonPathSegment) (i : Int)
    (t : JSON) (xs : List JSON) (hread : readPath q t = some (.arr xs)) :
    ((0 ≤ i → i < (xs.length : Int) →
      ∃ t', (remove (q ++ [.index i]) t).2 = .ok t' ∧
        readPath q t' = some (.arr (xs.take i.toNat ++ xs.drop (i.toNat + 1))) ∧
        (xs.take i.toNat ++ xs.drop (i.toNat + 1)).length = xs.length - 1)
    ∧ ((xs.length : Int) ≤ i → (remove (q ++ [.index i]) t).2 = .ok t)) := by
  obtain ⟨hin, hout⟩ := remove_last_index q i t xs hread
  refine ⟨?_, hout⟩
  intro h0 hlt
  obtain ⟨t', h1, h2⟩ := hin h0 hlt
  refine ⟨t', h1, h2, ?_⟩
  have hn : i.toNat < xs.length := by omega
  simp [List.length_take, List.length_drop]
  omega

/-- Witness for C5: removing index 1 from the top-level array
`[10, 20, 30]` yields `[10, 30]` (length 2), and removing index 7 leaves
the array unchanged. -/
theorem C5_remove_array_index_witness :
    (remove [.index 1] (.arr [.num 10, .num 20, .num 30])).2 =
      .ok (.arr [.num 10, .num 30])
    ∧ (remove [.index 7] (.arr [.num 10, .num 20, .num 30])).2 =
      .ok (.arr [.num 10, .num 20, .num 30]) := by
  constructor
  · obtain ⟨t', h1, h2, h3⟩ :=
      (C5_remove_array_index [] 1 (.arr [.num 10, .num 20, .num 30])
        [.num 10, .num 20, .num 30] rfl).1 (by norm_num) (by norm_num)
    simp [readPath] at h2
    subst h2
    simpa using h1
  · exact (C5_remove_array_index [] 7 (.arr [.num 10, .num 20, .num 30])
      [.num 10, .num 20, .num 30] rfl).2 (by norm_num)

/-! ### Claim C9: path parsing is total and never panics -/

theorem charIndex_append_of_not_mem (c : Char) (w r : List Char)
    (h : ∀ x ∈ w, x ≠ c) :
    charIndex c (w ++ r) = (charIndex c r).map (w.length + ·) := by
  induction w with
  | nil => simp [Option.map_id]
  | cons x xs ih =>
    have hx : x ≠ c := h x (by simp)
    have hxs : ∀ y ∈ xs, y ≠ c := fun y hy => h y (by simp [hy])
    rw [List.cons_append]
    have hstep : charIndex c (x :: (xs ++ r)) = (charIndex c (xs ++ r)).map (· + 1) := by
      simp [charIndex, hx]
    rw [hstep, ih hxs]
    cases charIndex c r with
    | none => rfl
    | some v =>
      simp
      omega

theorem charIndex_none_of_not_mem (c : Char) (l : List Char)
    (h : ∀ x ∈ l, x ≠ c) : charIndex c l = none := by
  induction l with
  | nil => rfl
  | cons x xs ih =>
    have hx : x ≠ c := h x (by simp)
    simp [charIndex, hx, ih (fun y hy => h y (by simp [hy]))]

theorem isAttrChar_ne (c : Char) (h : isAttrChar c = true) :
    c ≠ '.' ∧ c ≠ '[' ∧ c ≠ ']' := by
  refine ⟨?_, ?_, ?_⟩ <;> rintro rfl <;> exact absurd h (by decide)

theorem isDigitChar_ne (c : Char) (h : isDigitChar c = true) :
    c ≠ ']' ∧ c ≠ '+' ∧ c ≠ '-' := by
  refine ⟨?_, ?_, ?_⟩ <;> rintro rfl <;> exact absurd h (by decide)

theorem scanStep_inAttr_eq_afterRB (c : Char) (h : isAttrChar c = false) :
    scanStep .inAttr c = scanStep .afterRB c := by
  simp [scanStep, h]

/-- An accepted run from `inAttr` decomposes into an attribute-character
run followed by a remainder accepted from `afterRB` which is empty or
starts with `.` or `[`. -/
theorem scan_inAttr_cases (l : List Char) (h : pathScan .inAttr l = true) :
    ∃ w r, l = w ++ r ∧ (∀ x ∈ w, isAttrChar x = true) ∧
      pathScan .afterRB r = true ∧
      (r = [] ∨ (∃ r', r = '.' :: r') ∨ (∃ r', r = '[' :: r')) := by
  induction l with
  | nil => exact ⟨[], [], rfl, by simp, rfl, Or.inl rfl⟩
  | cons c t ih =>
    by_cases hc : isAttrChar c = true
    · have ht : pathScan .inAttr t = true := by
        rw [pathScan.eq_def] at h
        simpa [scanStep, hc] using h
      obtain ⟨w, r, hd, hw, hr, hshape⟩ := ih ht
      exact ⟨c :: w, r, by simp [hd], by
        intro x hx
        rcases List.mem_cons.mp hx with rfl | hx
        · exact hc
        · exact hw x hx, hr, hshape⟩
    · have hc' : isAttrChar c = false := by simpa using hc
      refine ⟨[], c :: t, rfl, by simp, ?_, ?_⟩
      · rw [pathScan.eq_def] at h ⊢
        simp only [] at h ⊢
        rw [scanStep_inAttr_eq_afterRB c hc'] at h
        exact h
      · rw [pathScan.eq_def] at h
        simp only [scanStep, hc', Bool.false_eq_true, if_false] at h
        by_cases hdot : c = '.'
        · exact Or.inr (Or.inl ⟨t, by rw [hdot]⟩)
        · by_cases hlb : c = '['
          · exact Or.inr (Or.inr ⟨t, by rw [hlb]⟩)
          · simp [hdot, hlb] at h

/-- An accepted run from `inDigits` decomposes into digits, `]`, and a
remainder accepted from `afterRB`. -/
theorem scan_inDigits_cases (l : List Char) (h : pathScan .inDigits l = true) :
    ∃ ds r, l = ds ++ ']' :: r ∧ (∀ x ∈ ds, isDigitChar x = true) ∧
      pathScan .afterRB r = true := by
  induction l with
  | nil => simp [pathScan, scanAccept] at h
  | cons c t ih =>
    by_cases hc : isDigitChar c = true
    · have ht : pathScan .inDigits t = true := by
        rw [pathScan.eq_def] at h
        simpa [scanStep, hc] using h
      obtain ⟨ds, r, hd, hds, hr⟩ := ih ht
      exact ⟨c :: ds, r, by simp [hd], by
        intro x hx
        rcases List.mem_cons.mp hx with rfl | hx
        · exact hc
        · exact hds x hx, hr⟩
    · have hc' : isDigitChar c = false := by simpa using hc
      rw [pathScan.eq_def] at h
      simp only [scanStep, hc', Bool.false_eq_true, if_false] at h
      by_cases hrb : c = ']'
      · subst hrb
        refine ⟨[], t, rfl, by simp, ?_⟩
        simpa using h
      · simp [hrb] at h

theorem scan_afterLB_cases (l : List Char) (h : pathScan .afterLB l = true) :
    ∃ ds r, l = ds ++ ']' :: r ∧ ds ≠ [] ∧ (∀ x ∈ ds, isDigitChar x = true) ∧
      pathScan .afterRB r = true := by
  cases l with
  | nil => simp [pathScan, scanAccept] at h
  | cons c t =>
    rw [pathScan.eq_def] at h
    by_cases hc : isDigitChar c = true
    · simp only [scanStep, hc, if_true] at h
      obtain ⟨ds, r, hd, hds, hr⟩ := scan_inDigits_cases t h
      exact ⟨c :: ds, r, by simp [hd], by simp, by
        intro x hx
        rcases List.mem_cons.mp hx with rfl | hx
        · exact hc
        · exact hds x hx, hr⟩
    · have hc' : isDigitChar c = false := by simpa using hc
      simp [scanStep, hc'] at h

theorem goAtoi_digits (ds : List Char) (hne : ds ≠ [])
    (hd : ∀ x ∈ ds, isDigitChar x = true) :
    (∃ n : Int, goAtoi ds = .ok n ∧ 0 ≤ n) ∨ (∃ e, goAtoi ds = .error e) := by
  cases ds with
  | nil => exact absurd rfl hne
  | cons c r =>
    have hc := hd c (by simp)
    obtain ⟨-, hplus, hminus⟩ := isDigitChar_ne c hc
    have hall : (c :: r).all isDigitChar = true := by
      rw [List.all_eq_true]
      exact hd
    simp only [goAtoi, if_neg hplus, if_neg hminus, List.isEmpty_cons,
      Bool.false_or, hall, Bool.not_true, Bool.false_eq_true, if_false]
    by_cases hrange : ((digitsToNat (c :: r) : Int) < -(2 ^ 63)
        || 2 ^ 63 - 1 < (digitsToNat (c :: r) : Int)) = true
    · rw [if_pos hrange]
      exact Or.inr ⟨_, rfl⟩
    · rw [if_neg hrange]
      exact Or.inl ⟨_, rfl, by positivity⟩


theorem charIndex_head (c : Char) (l : List Char) : charIndex c (c :: l) = some 0 := by
  simp [charIndex]

theorem parseFirstSegment_leading_dot (c : Char) (t : List Char) (hc : c ≠ '.') :
    parseFirstSegment ('.' :: c :: t) = parseFirstSegment (c :: t) := by
  simp [parseFirstSegment, hc]

theorem parseFirstSegment_attr_run (c : Char) (t w r : List Char)
    (hc : isAttrChar c = true)
    (hsplit : c :: t = w ++ r)
    (hw : ∀ x ∈ w, isAttrChar x = true)
    (hshape : r = [] ∨ (∃ r', r = '.' :: r') ∨ (∃ r', r = '[' :: r')) :
    parseFirstSegment (c :: t) = .ok (stringSegment ⟨w⟩, r) := by
  obtain ⟨hcd, hcb, -⟩ := isAttrChar_ne c hc
  have hwd : ∀ x ∈ w, x ≠ '.' := fun x hx => (isAttrChar_ne x (hw x hx)).1
  have hwb : ∀ x ∈ w, x ≠ '[' := fun x hx => (isAttrChar_ne x (hw x hx)).2.1
  have hwne : w ≠ [] := by
    rintro rfl
    rw [List.nil_append] at hsplit
    rcases hshape with rfl | ⟨r', rfl⟩ | ⟨r', rfl⟩
    · exact List.cons_ne_nil c t hsplit
    · exact hcd (by injection hsplit)
    · exact hcb (by injection hsplit)
  have hwlen : 1 ≤ w.length := by
    cases w with
    | nil => exact absurd rfl hwne
    | cons a b => simp
  have hdot : charIndex '.' (c :: t) = (charIndex '.' r).map (w.length + ·) := by
    rw [hsplit]; exact charIndex_append_of_not_mem _ _ _ hwd
  have hbr : charIndex '[' (c :: t) = (charIndex '[' r).map (w.length + ·) := by
    rw [hsplit]; exact charIndex_append_of_not_mem _ _ _ hwb
  have htake : (c :: t).take w.length = w := by rw [hsplit]; exact List.take_left w r
  have hdrop : (c :: t).drop w.length = r := by rw [hsplit]; exact List.drop_left w r
  rcases hshape with rfl | ⟨r', rfl⟩ | ⟨r', rfl⟩
  · have hdot' : charIndex '.' (c :: t) = none := by rw [hdot]; rfl
    have hbr' : charIndex '[' (c :: t) = none := by rw [hbr]; rfl
    rw [List.append_nil] at hsplit
    simp only [parseFirstSegment, if_neg hcd, if_neg hcb, hdot', hbr']
    rw [hsplit]
  · have hdot' : charIndex '.' (c :: t) = some w.length := by
      rw [hdot, charIndex_head]
      simp
    rcases hk : charIndex '[' ('.' :: r') with _ | k0
    · have hbr' : charIndex '[' (c :: t) = none := by rw [hbr, hk]; rfl
      simp only [parseFirstSegment, if_neg hcd, if_neg hcb, hdot', hbr']
      rw [htake, hdrop]
    · have hk1 : 1 ≤ k0 := by
        have hne : ('.' : Char) ≠ '[' := by decide
        simp [charIndex, hne] at hk
        obtain ⟨v, -, hv⟩ := hk
        omega
      have hbr' : charIndex '[' (c :: t) = some (w.length + k0) := by
        rw [hbr, hk]
        rfl
      have hcond : ¬(0 < w.length + k0 ∧ w.length + k0 < w.length) := by omega
      simp only [parseFirstSegment, if_neg hcd, if_neg hcb, hdot', hbr']
      rw [if_neg hcond, htake, hdrop]
  · have hbr' : charIndex '[' (c :: t) = some w.length := by
      rw [hbr, charIndex_head]
      simp
    rcases hk : charIndex '.' ('[' :: r') with _ | d0
    · have hdot' : charIndex '.' (c :: t) = none := by rw [hdot, hk]; rfl
      simp only [parseFirstSegment, if_neg hcd, if_neg hcb, hdot', hbr']
      rw [htake, hdrop]
    · have hk1 : 1 ≤ d0 := by
        have hne : ('[' : Char) ≠ '.' := by decide
        simp [charIndex, hne] at hk
        obtain ⟨v, -, hv⟩ := hk
        omega
      have hdot' : charIndex '.' (c :: t) = some (w.length + d0) := by
        rw [hdot, hk]
        rfl
      have hcond : 0 < w.length ∧ w.length < w.length + d0 := by omega
      simp only [parseFirstSegment, if_neg hcd, if_neg hcb, hdot', hbr']
      rw [if_pos hcond, htake, hdrop]


theorem parseFirstSegment_bracket_run (t ds r : List Char)
    (hsplit : t = ds ++ ']' :: r) (hne : ds ≠ [])
    (hd : ∀ x ∈ ds, isDigitChar x = true) :
    (∃ n : Int, parseFirstSegment ('[' :: t) = .ok (indexSegment n, r) ∧ 0 ≤ n)
    ∨ (∃ e, parseFirstSegment ('[' :: t) = .err e) := by
  have hdsne : ∀ x ∈ ds, x ≠ ']' := fun x hx => (isDigitChar_ne x (hd x hx)).1
  have hbd : ('[' : Char) ≠ '.' := by decide
  have hj : charIndex ']' t = some ds.length := by
    rw [hsplit, charIndex_append_of_not_mem _ _ _ hdsne, charIndex_head]
    simp
  have hj2 : charIndex ']' ('[' :: t) = some (ds.length + 1) := by
    have hne2 : ('[' : Char) ≠ ']' := by decide
    simp [charIndex, hne2, hj]
  have htake : t.take (ds.length + 1 - 1) = ds := by
    simp only [Nat.add_sub_cancel]
    rw [hsplit]
    exact List.take_left ds (']' :: r)
  have hdrop : t.drop (ds.length + 1) = r := by
    rw [hsplit]
    rw [List.drop_append_eq_append_drop]
    simp
  rcases goAtoi_digits ds hne hd with ⟨n, hok, hpos⟩ | ⟨e, herr⟩
  · refine Or.inl ⟨n, ?_, hpos⟩
    simp only [parseFirstSegment, if_neg hbd, eq_self_iff_true, if_true, hj2, htake, hok, hdrop]
  · refine Or.inr ⟨"failed to parse index: " ++ e, ?_⟩
    simp only [parseFirstSegment, if_neg hbd, eq_self_iff_true, if_true, hj2, htake, herr]


theorem parseFirstSegment_from_start (l : List Char) (hne : l ≠ [])
    (hs : pathScan .start l = true) :
    (∃ seg rest, parseFirstSegment l = .ok (seg, rest) ∧ segWellFormed seg ∧
      pathScan .afterRB rest = true ∧ rest.length < l.length)
    ∨ (∃ e, parseFirstSegment l = .err e) := by
  cases l with
  | nil => exact absurd rfl hne
  | cons c t =>
    rw [pathScan.eq_def] at hs
    simp only [] at hs
    by_cases hc : isAttrChar c = true
    · simp only [scanStep, hc, if_true] at hs
      obtain ⟨w, r, hd, hw, hr, hshape⟩ := scan_inAttr_cases t hs
      have hsplit : c :: t = (c :: w) ++ r := by simp [hd]
      have hall : ∀ x ∈ c :: w, isAttrChar x = true := by
        intro x hx
        rcases List.mem_cons.mp hx with rfl | hx
        · exact hc
        · exact hw x hx
      refine Or.inl ⟨stringSegment ⟨c :: w⟩, r,
        parseFirstSegment_attr_run c t (c :: w) r hc hsplit hall hshape, trivial, hr, ?_⟩
      have hlen := congrArg List.length hsplit
      simp at hlen
      simp [hlen]
      omega
    · have hc' : isAttrChar c = false := by simpa using hc
      by_cases hb : c = '['
      · subst hb
        simp only [scanStep, hc', Bool.false_eq_true, if_false, reduceIte] at hs
        obtain ⟨ds, r, hd, hdne, hds, hr⟩ := scan_afterLB_cases t hs
        rcases parseFirstSegment_bracket_run t ds r hd hdne hds with ⟨n, hok, hpos⟩ | ⟨e, herr⟩
        · refine Or.inl ⟨indexSegment n, r, hok,
            by simpa [indexSegment, segWellFormed] using hpos, hr, ?_⟩
          have hlen := congrArg List.length hd
          simp at hlen
          simp [hlen]
          omega
        · exact Or.inr ⟨_, herr⟩
      · simp [scanStep, hc', hb] at hs

theorem parseFirstSegment_from_afterRB (l : List Char) (hne : l ≠ [])
    (hs : pathScan .afterRB l = true) :
    (∃ seg rest, parseFirstSegment l = .ok (seg, rest) ∧ segWellFormed seg ∧
      pathScan .afterRB rest = true ∧ rest.length < l.length)
    ∨ (∃ e, parseFirstSegment l = .err e) := by
  cases l with
  | nil => exact absurd rfl hne
  | cons c t =>
    rw [pathScan.eq_def] at hs
    simp only [] at hs
    by_cases hdotc : c = '.'
    · subst hdotc
      simp only [scanStep, reduceIte] at hs
      cases t with
      | nil => simp [pathScan, scanAccept] at hs
      | cons c' t' =>
        rw [pathScan.eq_def] at hs
        simp only [] at hs
        by_cases hc' : isAttrChar c' = true
        · simp only [scanStep, hc', if_true] at hs
          obtain ⟨w, r, hd, hw, hr, hshape⟩ := scan_inAttr_cases t' hs
          have hsplit : c' :: t' = (c' :: w) ++ r := by simp [hd]
          have hall : ∀ x ∈ c' :: w, isAttrChar x = true := by
            intro x hx
            rcases List.mem_cons.mp hx with rfl | hx
            · exact hc'
            · exact hw x hx
          have hpf := parseFirstSegment_attr_run c' t' (c' :: w) r hc' hsplit hall hshape
          have hstrip := parseFirstSegment_leading_dot c' t' (isAttrChar_ne c' hc').1
          refine Or.inl ⟨stringSegment ⟨c' :: w⟩, r, by rw [hstrip, hpf],
            trivial, hr, ?_⟩
          have hlen := congrArg List.length hsplit
          simp at hlen
          simp [hlen]
          omega
        · simp [scanStep, hc'] at hs
    · by_cases hb : c = '['
      · subst hb
        have hbd : ('[' : Char) ≠ '.' := by decide
        simp only [scanStep, if_neg hbd, reduceIte] at hs
        obtain ⟨ds, r, hd, hdne, hds, hr⟩ := scan_afterLB_cases t hs
        rcases parseFirstSegment_bracket_run t ds r hd hdne hds with ⟨n, hok, hpos⟩ | ⟨e, herr⟩
        · refine Or.inl ⟨indexSegment n, r, hok,
            by simpa [indexSegment, segWellFormed] using hpos, hr, ?_⟩
          have hlen := congrArg List.length hd
          simp at hlen
          simp [hlen]
          omega
        · exact Or.inr ⟨_, herr⟩
      · simp [scanStep, hdotc, hb] at hs

theorem parseSegmentsLoop_total (fuel : Nat) : ∀ l : List Char,
    l.length < fuel → pathScan .afterRB l = true →
    ((∃ segs, parseSegmentsLoop fuel l = .ok segs ∧
        ∀ seg ∈ segs, segWellFormed seg)
    ∨ (∃ e, parseSegmentsLoop fuel l = .err e)) := by
  induction fuel with
  | zero =>
    intro l hl
    omega
  | succ n ih =>
    intro l hl hs
    cases l with
    | nil => exact Or.inl ⟨[], rfl, by simp⟩
    | cons c t =>
      rcases parseFirstSegment_from_afterRB (c :: t) (by simp) hs with
        ⟨seg, rest, hok, hwf, hrest, hlen⟩ | ⟨e, herr⟩
      · have hlen2 : rest.length < n := by
          simp at hl hlen
          omega
        rcases ih rest hlen2 hrest with ⟨segs, hsegs, hwfs⟩ | ⟨e, herr2⟩
        · refine Or.inl ⟨seg :: segs, ?_, ?_⟩
          · simp only [parseSegmentsLoop, hok, hsegs]
          · intro s hs'
            rcases List.mem_cons.mp hs' with rfl | hh
            · exact hwf
            · exact hwfs _ hh
        · exact Or.inr ⟨e, by simp only [parseSegmentsLoop, hok, herr2]⟩
      · exact Or.inr ⟨"failed to parse json path: " ++ e,
          by simp only [parseSegmentsLoop, herr]⟩

/-- C9 (amended): path parsing is a total function that never panics:
for every input string it either returns a non-empty sequence of
segments, each being exactly one of an attribute or a non-negative
integer index, or it fails with an error — in particular the character
indexing and slicing in `parseFirstSegment` stay in bounds, and the
fuelled segmentation loop never hits its exhaustion arm, whenever the
whole-string grammar check has passed. (The original claim additionally
asserted that every failure message carries the offending path text
verbatim; the bracketed-index overflow failure does not — see the
counterexample.) -/
theorem C9_parse_total_never_panics (s : String) :
    (∃ segs, parseJSONPath s = .ok segs ∧ segs ≠ [] ∧
      ∀ seg ∈ segs, segWellFormed seg)
    ∨ (∃ e, parseJSONPath s = .err e) := by
  by_cases hm : naiveJSONPathRegexpMatch s = true
  · have hm' : pathScan .start s.data = true := hm
    rcases hdata : s.data with _ | ⟨c, t⟩
    · rw [hdata] at hm'
      simp [pathScan, scanAccept] at hm'
    · rw [hdata] at hm'
      rcases parseFirstSegment_from_start (c :: t) (by simp) hm' with
        ⟨seg, rest, hok, hwf, hrest, hlen⟩ | ⟨e, herr⟩
      · rcases parseSegmentsLoop_total (t.length + 1) rest
          (by simp at hlen; omega) hrest
          with ⟨segs, hsegs, hwfs⟩ | ⟨e, herr2⟩
        · refine Or.inl ⟨seg :: segs, ?_, by simp, ?_⟩
          · rw [parseJSONPath, if_pos hm, hdata]
            simp only [List.length_cons, parseSegmentsLoop, hok, hsegs]
          · intro s' hs'
            rcases List.mem_cons.mp hs' with rfl | hh
            · exact hwf
            · exact hwfs _ hh
        · refine Or.inr ⟨e, ?_⟩
          rw [parseJSONPath, if_pos hm, hdata]
          simp only [List.length_cons, parseSegmentsLoop, hok, herr2]
      · refine Or.inr ⟨"failed to parse json path: " ++ e, ?_⟩
        rw [parseJSONPath, if_pos hm, hdata]
        simp only [List.length_cons, parseSegmentsLoop, herr]
  · refine Or.inr ⟨"cannot parse json path [" ++ goQuote s
      ++ "], it doesn't seem valid", ?_⟩
    rw [parseJSONPath, if_neg hm]

/-- Counterexample to C9 as stated: the path `[9223372036854775808]`
passes the whole-string grammar check, but `strconv.Atoi` overflows the
64-bit machine integer, so parsing fails with the wrapped malformed-index
error — a parse failure whose message does not carry the offending path
text verbatim (the message quotes only the digits, without the
brackets). -/
theorem C9_counterexample_overflow_index :
    parseJSONPath "[9223372036854775808]" =
      .err "failed to parse json path: failed to parse index: strconv.Atoi: parsing \"9223372036854775808\": value out of range"
    ∧ containsSub "[9223372036854775808]".data
        ("failed to parse json path: failed to parse index: strconv.Atoi: parsing \"9223372036854775808\": value out of range").data
      = false := by
  exact ⟨rfl, rfl⟩

end SlowJSON
